import Mathlib

/-!
Shallow embedding of the core of the Karaoke Pitch Trainer repository
(scoring, pitch median filter, pitch-bar range query, playback transport,
pitch timeline accumulation, capture-pipeline stop), with theorems about
the spec claims.  Times are rationals (JS numbers used as milliseconds or
seconds), MIDI values in the worker are integers (they are produced by
rounding), MIDI values in the timeline are rationals.
-/

/-- JS Math.round for the nonnegative rationals that appear here:
round-half-up, i.e. floor(x + 1/2). -/
def jsRound (q : ℚ) : ℤ := ⌊q + 1 / 2⌋

/-- MelodyNote from src/app/lib/melody.ts (fields used by the core). -/
structure MelodyNote where
  startMs : ℚ
  endMs : ℚ
  pitch : ℚ
  deriving Repr, DecidableEq

/-- PitchEntry, the timeline sample type: { timeMs, midi }. -/
structure PitchEntry where
  timeMs : ℚ
  midi : ℚ
  deriving Repr, DecidableEq

/-- getTargetPitchAtTime from src/app/lib/melody.ts:
`notes.find((n) => timeMs >= n.startMs && timeMs < n.endMs)`, returning
the pitch of the first containing note. -/
def getTargetPitchAtTime (notes : List MelodyNote) (timeMs : ℚ) : Option ℚ :=
  (notes.find? (fun n => decide (n.startMs ≤ timeMs ∧ timeMs < n.endMs))).map
    (fun n => n.pitch)

/-- The accumulation loop of computeScore from src/app/lib/melody.ts:
skips entries with midi <= 0, skips entries whose timestamp lies in no
note, counts a match when |midi - target| <= 1.  Returns
(matched, total). -/
def computeScoreLoop (notes : List MelodyNote) :
    List PitchEntry → Nat → Nat → Nat × Nat
  | [], matched, total => (matched, total)
  | e :: rest, matched, total =>
    if e.midi ≤ 0 then computeScoreLoop notes rest matched total
    else
      match getTargetPitchAtTime notes e.timeMs with
      | none => computeScoreLoop notes rest matched total
      | some target =>
        if |e.midi - target| ≤ 1 then
          computeScoreLoop notes rest (matched + 1) (total + 1)
        else computeScoreLoop notes rest matched (total + 1)

/-- computeScore from src/app/lib/melody.ts:
`total === 0 ? 0 : Math.round((matched / total) * 100)`. -/
def computeScore (pitchData : List PitchEntry) (notes : List MelodyNote) : ℤ :=
  let mt := computeScoreLoop notes pitchData 0 0
  if mt.2 = 0 then 0 else jsRound ((mt.1 : ℚ) / (mt.2 : ℚ) * 100)

/-- The timeline has no comparable sample: every sample with positive
midi falls in no melody-note interval. -/
def NoComparableSample (pitchData : List PitchEntry) (notes : List MelodyNote) : Prop :=
  ∀ e ∈ pitchData, 0 < e.midi → getTargetPitchAtTime notes e.timeMs = none

instance (pitchData : List PitchEntry) (notes : List MelodyNote) :
    Decidable (NoComparableSample pitchData notes) := by
  unfold NoComparableSample
  infer_instance

-- Helper lemmas about the scoring loop.

theorem computeScoreLoop_le (notes : List MelodyNote) (l : List PitchEntry)
    (m t : Nat) (h : m ≤ t) :
    (computeScoreLoop notes l m t).1 ≤ (computeScoreLoop notes l m t).2 := by
  induction l generalizing m t with
  | nil => simpa [computeScoreLoop] using h
  | cons e rest ih =>
    simp only [computeScoreLoop]
    split
    · exact ih m t h
    · cases hg : getTargetPitchAtTime notes e.timeMs with
      | none => exact ih m t h
      | some target =>
        simp only []
        split
        · exact ih (m + 1) (t + 1) (by omega)
        · exact ih m (t + 1) (by omega)

theorem computeScoreLoop_of_noComparable (notes : List MelodyNote)
    (l : List PitchEntry) (m t : Nat)
    (h : ∀ e ∈ l, 0 < e.midi → getTargetPitchAtTime notes e.timeMs = none) :
    computeScoreLoop notes l m t = (m, t) := by
  induction l generalizing m t with
  | nil => rfl
  | cons e rest ih =>
    simp only [computeScoreLoop]
    have hrest : ∀ x ∈ rest, 0 < x.midi → getTargetPitchAtTime notes x.timeMs = none :=
      fun x hx => h x (List.mem_cons_of_mem e hx)
    split
    · exact ih m t hrest
    · rename_i hpos
      have : getTargetPitchAtTime notes e.timeMs = none :=
        h e (List.mem_cons_self e rest) (lt_of_not_le hpos)
      rw [this]
      exact ih m t hrest

theorem jsRound_nonneg (q : ℚ) (h : 0 ≤ q) : 0 ≤ jsRound q := by
  unfold jsRound
  have : (0 : ℚ) ≤ q + 1 / 2 := by linarith
  exact Int.floor_nonneg.mpr this

theorem jsRound_le_hundred (q : ℚ) (h : q ≤ 100) : jsRound q ≤ 100 := by
  unfold jsRound
  have h1 : q + 1 / 2 ≤ (100 : ℚ) + 1 / 2 := by linarith
  calc ⌊q + 1 / 2⌋ ≤ ⌊(100 : ℚ) + 1 / 2⌋ := Int.floor_le_floor h1
    _ = 100 := by norm_num

/-- C1: computeScore always returns an integer in [0, 100]; when the
loop counted a nonzero total it equals round(100 * matched / total);
and when no sample with midi > 0 lies inside a melody-note interval
(total = 0) it returns 0. -/
theorem computeScore_bounds_and_zero (pitchData : List PitchEntry)
    (notes : List MelodyNote) :
    (0 ≤ computeScore pitchData notes ∧ computeScore pitchData notes ≤ 100) ∧
    (NoComparableSample pitchData notes → computeScore pitchData notes = 0) ∧
    (∀ m t : Nat, computeScoreLoop notes pitchData 0 0 = (m, t) → t ≠ 0 →
      computeScore pitchData notes = jsRound ((m : ℚ) / (t : ℚ) * 100)) := by
  refine ⟨?_, ?_, ?_⟩
  · unfold computeScore
    have hle : (computeScoreLoop notes pitchData 0 0).1 ≤
        (computeScoreLoop notes pitchData 0 0).2 :=
      computeScoreLoop_le notes pitchData 0 0 (le_refl 0)
    set mt := computeScoreLoop notes pitchData 0 0 with hmt
    by_cases h0 : mt.2 = 0
    · simp [h0]
    · simp only [h0, if_false]
      have ht : (0 : ℚ) < (mt.2 : ℚ) := by
        exact_mod_cast Nat.pos_of_ne_zero h0
      have hq0 : (0 : ℚ) ≤ (mt.1 : ℚ) / (mt.2 : ℚ) * 100 := by
        apply mul_nonneg _ (by norm_num)
        exact div_nonneg (Nat.cast_nonneg _) (le_of_lt ht)
      have hq100 : (mt.1 : ℚ) / (mt.2 : ℚ) * 100 ≤ 100 := by
        have hdiv : (mt.1 : ℚ) / (mt.2 : ℚ) ≤ 1 := by
          rw [div_le_one ht]
          exact_mod_cast hle
        nlinarith
      exact ⟨jsRound_nonneg _ hq0, jsRound_le_hundred _ hq100⟩
  · intro h
    unfold computeScore
    rw [computeScoreLoop_of_noComparable notes pitchData 0 0 h]
    simp
  · intro m t hmt ht
    unfold computeScore
    rw [hmt]
    simp [ht]

/-- Witness for C1 at a concrete input: a timeline whose only positive
sample lies outside the single melody note, so the score is 0. -/
theorem computeScore_bounds_and_zero_witness :
    NoComparableSample [⟨1500, 60⟩] [⟨0, 1000, 60⟩] ∧
    computeScore [⟨1500, 60⟩] [⟨0, 1000, 60⟩] = 0 := by
  refine ⟨by decide, ?_⟩
  exact (computeScore_bounds_and_zero [⟨1500, 60⟩] [⟨0, 1000, 60⟩]).2.1 (by decide)

/-- C2: for the melody [{0,1000,60}], the timeline
[{0,60},{500,61},{999,59}] scores 100 (every sample within the plus or
minus one semitone tolerance), and replacing the middle sample by 65
scores round(100*2/3) = 67. -/
theorem computeScore_example_scenario :
    computeScore [⟨0, 60⟩, ⟨500, 61⟩, ⟨999, 59⟩] [⟨0, 1000, 60⟩] = 100 ∧
    computeScore [⟨0, 60⟩, ⟨500, 65⟩, ⟨999, 59⟩] [⟨0, 1000, 60⟩] = 67 := by
  constructor <;>
    norm_num [computeScore, computeScoreLoop, getTargetPitchAtTime, List.find?,
      jsRound, Int.floor_eq_iff]

/-!
src/app/lib/pitch.worker.ts: the trailing median filter with jump
rejection.  The filter state is the mutable pair
(midiHistory, lastStableMidi); MIDI values reaching the filter are
integers (Math.round of the frequency conversion, or 0 for silence).
-/

/-- MEDIAN_WINDOW from src/app/lib/pitch.worker.ts. -/
def MEDIAN_WINDOW : Nat := 3

/-- The worker's filter state: the mutable midiHistory array (length at
most MEDIAN_WINDOW) and lastStableMidi. -/
structure FilterState where
  midiHistory : List ℤ
  lastStableMidi : ℤ
  deriving Repr, DecidableEq

/-- Initial worker state: empty history, lastStableMidi = 0. -/
def initFilterState : FilterState := ⟨[], 0⟩

/-- Insert into an ascending-sorted list (model of the ascending
`valid.sort((a, b) => a - b)` of the worker). -/
def insertAsc (x : ℤ) : List ℤ → List ℤ
  | [] => [x]
  | y :: ys => if x ≤ y then x :: y :: ys else y :: insertAsc x ys

/-- Ascending insertion sort over integers. -/
def sortAsc : List ℤ → List ℤ
  | [] => []
  | x :: xs => insertAsc x (sortAsc xs)

/-- The jump-rejection step of medianFilter:
`if (midi > 0 && lastStableMidi > 0 && Math.abs(midi - lastStableMidi) >= 10) midi = 0`. -/
def mfMidi (st : FilterState) (midiIn : ℤ) : ℤ :=
  if 0 < midiIn ∧ 0 < st.lastStableMidi ∧ 10 ≤ |midiIn - st.lastStableMidi|
  then 0 else midiIn

/-- The window update of medianFilter:
`midiHistory.push(midi); if (midiHistory.length > MEDIAN_WINDOW) midiHistory.shift()`. -/
def mfHist (st : FilterState) (midiIn : ℤ) : List ℤ :=
  let hist0 := st.midiHistory ++ [mfMidi st midiIn]
  if MEDIAN_WINDOW < hist0.length then hist0.tail else hist0

/-- The positive window entries of medianFilter:
`const valid = midiHistory.filter((v) => v > 0)`. -/
def mfValid (st : FilterState) (midiIn : ℤ) : List ℤ :=
  (mfHist st midiIn).filter (fun v => decide (0 < v))

/-- The returned value of medianFilter:
`if (valid.length === 0) return 0` and otherwise
`valid.sort((a, b) => a - b); valid[Math.floor(valid.length / 2)]`. -/
def mfResult (st : FilterState) (midiIn : ℤ) : ℤ :=
  if (mfValid st midiIn).length = 0 then 0
  else (sortAsc (mfValid st midiIn)).getD ((mfValid st midiIn).length / 2) 0

/-- medianFilter from src/app/lib/pitch.worker.ts, assembled from the
pieces above: the new state keeps the updated window and applies
`if (result > 0) lastStableMidi = result`, and the result is returned.
The early `return 0` of the empty-window case is covered because the
guarded lastStableMidi update does nothing when the result is 0. -/
def medianFilter (st : FilterState) (midiIn : ℤ) : FilterState × ℤ :=
  (⟨mfHist st midiIn,
    if 0 < mfResult st midiIn then mfResult st midiIn else st.lastStableMidi⟩,
   mfResult st midiIn)

/-- Run the median filter over a raw per-frame estimate sequence,
returning the output sequence and the final state. -/
def runMedianFilter (st : FilterState) : List ℤ → List ℤ × FilterState
  | [] => ([], st)
  | m :: rest =>
    let step := medianFilter st m
    let tail := runMedianFilter step.1 rest
    (step.2 :: tail.1, tail.2)

/-- C3: feeding the raw sequence [60, 60, 72, 60, 60] into the median
filter from the empty state outputs [60, 60, 60, 60, 60]: the one-frame
12-semitone spike is rejected and never appears in the output. -/
theorem medianFilter_spike_rejection :
    (runMedianFilter initFilterState [60, 60, 72, 60, 60]).1 =
      [60, 60, 60, 60, 60] := by
  decide

-- Helper lemmas about the ascending insertion sort.

theorem mem_insertAsc {a x : ℤ} {l : List ℤ} :
    a ∈ insertAsc x l ↔ a = x ∨ a ∈ l := by
  induction l with
  | nil => simp [insertAsc]
  | cons y ys ih =>
    simp only [insertAsc]
    split
    · simp
    · simp only [List.mem_cons, ih]
      tauto

theorem mem_sortAsc {a : ℤ} {l : List ℤ} : a ∈ sortAsc l ↔ a ∈ l := by
  induction l with
  | nil => simp [sortAsc]
  | cons x xs ih =>
    simp only [sortAsc, mem_insertAsc, ih, List.mem_cons]

theorem length_insertAsc (x : ℤ) (l : List ℤ) :
    (insertAsc x l).length = l.length + 1 := by
  induction l with
  | nil => rfl
  | cons y ys ih =>
    simp only [insertAsc]
    split
    · simp
    · simp [ih]

theorem length_sortAsc (l : List ℤ) : (sortAsc l).length = l.length := by
  induction l with
  | nil => rfl
  | cons x xs ih => simp [sortAsc, length_insertAsc, ih]

theorem sortAsc_getD_pos (valid : List ℤ) (hn : valid.length ≠ 0)
    (hpos : ∀ v ∈ valid, 0 < v) :
    0 < (sortAsc valid).getD (valid.length / 2) 0 := by
  have hlt : valid.length / 2 < (sortAsc valid).length := by
    rw [length_sortAsc]
    omega
  rw [List.getD_eq_getElem _ _ hlt]
  exact hpos _ (mem_sortAsc.mp (List.getElem_mem hlt))

/-- C10 counterexample: from the empty state, the inputs 40 then 31
establish the stable value 40 (and history [40, 31]).  The sustained
raw estimate 30 satisfies |30 - 40| = 10 >= 10, yet feeding it three
times produces the outputs 40, 31, 30: at the third repetition the raw
estimate 30 is accepted and returned, because a rejected frame shifted
the window and moved lastStableMidi to 31.  So a sustained jump of 10
or more semitones from the established stable value is not rejected
indefinitely. -/
theorem lastStable_drift_counterexample :
    (runMedianFilter initFilterState [40, 31]).2.lastStableMidi = 40 ∧
    (0 : ℤ) < 30 ∧ 10 ≤ |(30 : ℤ) - 40| ∧
    (runMedianFilter initFilterState [40, 31, 30, 30, 30]).1 =
      [40, 40, 40, 31, 30] := by
  refine ⟨by decide, by decide, by decide, by decide⟩

/-- C10 amended: (a) once lastStableMidi is positive it never returns
to 0; (b) a frame whose filter output is 0 (silence, or no positive
window entry) leaves lastStableMidi unchanged; (c) at any single frame,
a raw estimate m > 0 with |m - lastStableMidi| >= 10 against the
current positive lastStableMidi is converted to 0 before entering the
window (the appended window entry is 0).  The indefinite-rejection
part of the original claim fails: lastStableMidi can drift to another
window value under rejected or silent frames (see the
counterexample). -/
theorem medianFilter_lastStable_props (st : FilterState) (m : ℤ) :
    (0 < st.lastStableMidi → 0 < (medianFilter st m).1.lastStableMidi) ∧
    ((medianFilter st m).2 = 0 →
      (medianFilter st m).1.lastStableMidi = st.lastStableMidi) ∧
    (0 < m → 0 < st.lastStableMidi → 10 ≤ |m - st.lastStableMidi| →
      (medianFilter st m).1.midiHistory.getLast? = some 0) := by
  have hres_cases : mfResult st m = 0 ∨ 0 < mfResult st m := by
    unfold mfResult
    by_cases h0 : (mfValid st m).length = 0
    · left
      simp [h0]
    · right
      simp only [h0, if_false]
      exact sortAsc_getD_pos (mfValid st m) h0 (fun v hv => by
        have := List.of_mem_filter (p := fun v => decide (0 < v)) hv
        exact of_decide_eq_true this)
  refine ⟨?_, ?_, ?_⟩
  · intro hpos
    simp only [medianFilter]
    rcases hres_cases with h0 | h1
    · simp [h0]
      exact hpos
    · simp [h1]
  · intro hout
    simp only [medianFilter] at hout ⊢
    rw [hout]
    simp
  · intro hm hs hjump
    simp only [medianFilter, mfHist]
    have hcond : mfMidi st m = 0 := by
      unfold mfMidi
      simp [hm, hs, hjump]
    rw [hcond]
    have hlast : ∀ l : List ℤ, (l ++ [(0 : ℤ)]).getLast? = some 0 := by
      intro l
      simp [List.getLast?_append]
    by_cases hlen : MEDIAN_WINDOW < (st.midiHistory ++ [(0 : ℤ)]).length
    · simp only [hlen, if_true]
      cases hmh : st.midiHistory with
      | nil =>
        rw [hmh] at hlen
        exact absurd hlen (by norm_num [MEDIAN_WINDOW])
      | cons a as =>
        have htail : ((a :: as) ++ [(0 : ℤ)]).tail = as ++ [(0 : ℤ)] := rfl
        rw [htail]
        exact hlast as
    · simp only [hlen, if_false]
      exact hlast st.midiHistory

/-- Witness for C10 amended at a concrete state: lastStableMidi 60,
window [60], raw estimate 75 (a 15-semitone jump): the new
lastStableMidi stays positive and the appended window entry is 0. -/
theorem medianFilter_lastStable_props_witness :
    (0 : ℤ) < (medianFilter ⟨[60], 60⟩ 75).1.lastStableMidi ∧
    (medianFilter ⟨[60], 60⟩ 75).1.midiHistory.getLast? = some 0 := by
  constructor
  · exact (medianFilter_lastStable_props ⟨[60], 60⟩ 75).1 (by decide)
  · exact (medianFilter_lastStable_props ⟨[60], 60⟩ 75).2.2 (by decide) (by decide) (by decide)

/-!
src/app/lib/usePitchDetection.ts: the capture pipeline's resource refs
and its stop routine.  Resources are modelled as optional handles; the
recorder carries whether its state differs from inactive, and the blob
is the list of recorded chunks.
-/

/-- The mutable refs of usePitchDetection that stop() touches:
intervalId, recorder (with whether its state is not inactive), the
recorded chunks, and the processor / gain / source / stream / context
handles. -/
structure PipelineState where
  intervalId : Option ℕ
  recorderActive : Option Bool
  chunks : List ℕ
  processor : Bool
  gainNode : Bool
  sourceNode : Bool
  stream : Bool
  context : Bool
  deriving Repr, DecidableEq

/-- The refs of a pipeline that was never started: everything null. -/
def initPipelineState : PipelineState :=
  ⟨none, none, [], false, false, false, false, false⟩

/-- stop from src/app/lib/usePitchDetection.ts: clears the emission
interval; when a non-inactive recorder exists, resolves the chunks into
a blob (null when no chunks); clears the recorder ref; disconnects and
clears processor / gain / source when both processor and source exist;
stops and clears the stream; closes and clears the context.  Returns
the new refs and the blob. -/
def pipelineStop (st : PipelineState) : PipelineState × Option (List ℕ) :=
  let st1 := { st with intervalId := none }
  let blob : Option (List ℕ) :=
    match st1.recorderActive with
    | some true => if st1.chunks.length ≠ 0 then some st1.chunks else none
    | _ => none
  let st2 := { st1 with recorderActive := none }
  let st3 :=
    if st2.processor ∧ st2.sourceNode then
      { st2 with processor := false, gainNode := false, sourceNode := false }
    else st2
  let st4 := if st3.stream then { st3 with stream := false } else st3
  let st5 := if st4.context then { st4 with context := false } else st4
  (st5, blob)

/-- C9: stop is idempotent.  On a never-started pipeline it changes no
refs and returns no blob, and stopping a second time after any stop
changes no refs and returns no blob. -/
theorem pipelineStop_idempotent :
    pipelineStop initPipelineState = (initPipelineState, none) ∧
    ∀ st : PipelineState,
      pipelineStop (pipelineStop st).1 = ((pipelineStop st).1, none) := by
  constructor
  · decide
  · intro st
    obtain ⟨iid, rec, ch, p, g, s, str, ctx⟩ := st
    cases p <;> cases s <;> cases str <;> cases ctx <;>
      simp [pipelineStop]

/-!
src/app/lib/usePracticePlayback.ts (and the identically-shaped
src/app/lib/usePlaybackPlayer.ts position query): the playback
transport.  Clock times (AudioContext.currentTime) and buffer offsets
are in seconds; positions are in milliseconds.  hasContext models
contextRef, buffersLoaded models the inst/vocal buffer and gain refs,
activeSource models which AudioBufferSourceNode ref is set
(some true = guide vocal, some false = instrumental).
-/

/-- The transport refs of usePracticePlayback. -/
structure Transport where
  hasContext : Bool
  buffersLoaded : Bool
  playing : Bool
  offset : ℚ
  startedAt : ℚ
  useGuideVocal : Bool
  activeSource : Option Bool
  totalDurationMs : ℚ
  deriving Repr, DecidableEq

/-- All refs needed by seekToMs / toggleGuideVocal are present. -/
def Transport.ready (st : Transport) : Prop :=
  st.hasContext = true ∧ st.buffersLoaded = true

instance (st : Transport) : Decidable st.ready := by
  unfold Transport.ready
  infer_instance

/-- getPlaybackPositionMs from src/app/lib/usePracticePlayback.ts
(the same expression as getPositionMs in usePlaybackPlayer.ts):
0 without a context; offset * 1000 when not playing;
(offset + (currentTime - startedAt)) * 1000 when playing. -/
def getPlaybackPositionMs (st : Transport) (now : ℚ) : ℚ :=
  if st.hasContext = false then 0
  else if st.playing = false then st.offset * 1000
  else (st.offset + (now - st.startedAt)) * 1000

/-- seekToMs from src/app/lib/usePracticePlayback.ts: no-op unless the
refs are present and totalDurationMs > 0; clamps the target to
[0, totalDurationMs] (in seconds); stops the sources and stores the
new offset; when it was playing, restarts the source selected by
useGuideVocal at the new offset with startedAt = currentTime. -/
def seekToMs (st : Transport) (now timeMs : ℚ) : Transport :=
  if ¬(st.ready ∧ 0 < st.totalDurationMs) then st
  else
    let sec := max 0 (min (st.totalDurationMs / 1000) (timeMs / 1000))
    let wasPlaying := st.playing
    let st1 := { st with playing := false, offset := sec, activeSource := none }
    if wasPlaying then
      { st1 with startedAt := now, playing := true,
                 activeSource := some st.useGuideVocal }
    else st1

/-- toggleGuideVocal from src/app/lib/usePracticePlayback.ts: no-op
unless the refs are present; captures the current position, stops the
sources, stores the position as the new offset, flips useGuideVocal;
when it was playing, restarts the source selected by the flipped flag
(`const next = !useGuideVocal`) at that position. -/
def toggleGuideVocal (st : Transport) (now : ℚ) : Transport :=
  if ¬st.ready then st
  else
    let currentMs := getPlaybackPositionMs st now
    let currentSec := currentMs / 1000
    let wasPlaying := st.playing
    let st1 := { st with playing := false, offset := currentSec,
                         activeSource := none,
                         useGuideVocal := !st.useGuideVocal }
    if wasPlaying then
      { st1 with startedAt := now, playing := true,
                 activeSource := some (!st.useGuideVocal) }
    else st1

/-- C4: with an initialized context, the position query returns
storedOffset plus the elapsed clock time (in milliseconds) while
playing, and exactly the stored offset in milliseconds while paused:
positionMs = (wasPlaying ? elapsedWallClock : 0) + storedOffsetMs. -/
theorem playbackPosition_formula (st : Transport) (now : ℚ)
    (hctx : st.hasContext = true) :
    getPlaybackPositionMs st now =
      (if st.playing then (now - st.startedAt) * 1000 else 0) +
        st.offset * 1000 := by
  unfold getPlaybackPositionMs
  rw [hctx]
  by_cases hp : st.playing = true
  · simp only [hp]
    norm_num
    ring
  · have hp2 : st.playing = false := by
      cases h : st.playing
      · rfl
      · exact absurd h hp
    simp [hp2]

/-- Witness for C4: a playing transport with offset 2 s, started at
clock 5 s, queried at clock 8 s reports (8 - 5) * 1000 + 2000 ms. -/
theorem playbackPosition_formula_witness :
    getPlaybackPositionMs
        ⟨true, true, true, 2, 5, false, some false, 60000⟩ 8 =
      ((8 : ℚ) - 5) * 1000 + 2 * 1000 := by
  have h := playbackPosition_formula
    ⟨true, true, true, 2, 5, false, some false, 60000⟩ 8 rfl
  simpa using h

/-- C6: with the refs present and a positive duration, seekToMs clamps
the target to [0, totalDurationMs]; called while paused it changes only
the stored offset (and the cleared source refs), so a position query
afterwards returns exactly X whenever X was already in
[0, totalDurationMs]; called while playing it keeps the playing state,
restarts from the new offset at the current clock time, and restarts
the source selected by the unchanged useGuideVocal flag. -/
theorem seekToMs_spec (st : Transport) (now X : ℚ)
    (hready : st.ready) (htotal : 0 < st.totalDurationMs) :
    (0 ≤ (seekToMs st now X).offset ∧
      (seekToMs st now X).offset * 1000 ≤ st.totalDurationMs) ∧
    (seekToMs st now X).playing = st.playing ∧
    (st.playing = false →
      seekToMs st now X =
        { st with offset := max 0 (min (st.totalDurationMs / 1000) (X / 1000)),
                  activeSource := none } ∧
      (0 ≤ X → X ≤ st.totalDurationMs →
        ∀ t : ℚ, getPlaybackPositionMs (seekToMs st now X) t = X)) ∧
    (st.playing = true →
      (seekToMs st now X).offset =
        max 0 (min (st.totalDurationMs / 1000) (X / 1000)) ∧
      (seekToMs st now X).startedAt = now ∧
      (seekToMs st now X).activeSource = some st.useGuideVocal ∧
      (seekToMs st now X).useGuideVocal = st.useGuideVocal) := by
  obtain ⟨c, b, p, o, sa, g, asrc, tot⟩ := st
  obtain ⟨hc, hb⟩ := hready
  simp only at hc hb htotal
  subst hc hb
  have hclamp0 : 0 ≤ max 0 (min (tot / 1000) (X / 1000)) := le_max_left 0 _
  have hclamp1 : max 0 (min (tot / 1000) (X / 1000)) * 1000 ≤ tot := by
    have h1 : min (tot / 1000) (X / 1000) ≤ tot / 1000 := min_le_left _ _
    have h2 : max 0 (min (tot / 1000) (X / 1000)) ≤ tot / 1000 := by
      apply max_le _ h1
      positivity
    nlinarith
  cases p with
  | false =>
    have hseek : seekToMs ⟨true, true, false, o, sa, g, asrc, tot⟩ now X =
        ⟨true, true, false, max 0 (min (tot / 1000) (X / 1000)), sa, g, none,
          tot⟩ := by
      simp [seekToMs, Transport.ready, htotal]
    refine ⟨?_, ?_, ?_, ?_⟩
    · rw [hseek]
      exact ⟨hclamp0, hclamp1⟩
    · rw [hseek]
    · intro _
      constructor
      · rw [hseek]
      · intro hX0 hX1 t
        have hmin : min (tot / 1000) (X / 1000) = X / 1000 := by
          apply min_eq_right
          apply div_le_div_of_nonneg_right hX1
          norm_num
        have hmax : max 0 (X / 1000) = X / 1000 := by
          apply max_eq_right
          positivity
        rw [hseek]
        simp only [getPlaybackPositionMs, hmin, hmax]
        norm_num
    · intro h
      exact absurd h (by simp)
  | true =>
    have hseek : seekToMs ⟨true, true, true, o, sa, g, asrc, tot⟩ now X =
        ⟨true, true, true, max 0 (min (tot / 1000) (X / 1000)), now, g, some g,
          tot⟩ := by
      simp [seekToMs, Transport.ready, htotal]
    refine ⟨?_, ?_, ?_, ?_⟩
    · rw [hseek]
      exact ⟨hclamp0, hclamp1⟩
    · rw [hseek]
    · intro h
      exact absurd h (by simp)
    · intro _
      rw [hseek]
      exact ⟨rfl, rfl, rfl, rfl⟩

/-- Witness for C6: paused transport (duration 60000 ms, offset 1 s),
seek to X = 2500 ms, query anywhere afterwards: exactly 2500. -/
theorem seekToMs_spec_witness :
    getPlaybackPositionMs
        (seekToMs ⟨true, true, false, 1, 0, false, none, 60000⟩ 7 2500) 9 =
      2500 := by
  have h := (seekToMs_spec ⟨true, true, false, 1, 0, false, none, 60000⟩ 7 2500
    (by unfold Transport.ready; exact ⟨rfl, rfl⟩) (by norm_num)).2.2.1 rfl
  exact h.2 (by norm_num) (by norm_num) 9

/-- C7: toggling the guide vocal twice while playing (refs present)
restores the original useGuideVocal flag, restarts the originally
active source, stays playing, and a position query right after the
second toggle agrees exactly with the position the original transport
would report at that clock time (the toggles do not move playback). -/
theorem toggleGuideVocal_twice (st : Transport) (now1 now2 : ℚ)
    (hready : st.ready) (hplaying : st.playing = true) :
    (toggleGuideVocal (toggleGuideVocal st now1) now2).useGuideVocal =
      st.useGuideVocal ∧
    (toggleGuideVocal (toggleGuideVocal st now1) now2).activeSource =
      some st.useGuideVocal ∧
    (toggleGuideVocal (toggleGuideVocal st now1) now2).playing = true ∧
    getPlaybackPositionMs (toggleGuideVocal (toggleGuideVocal st now1) now2)
        now2 =
      getPlaybackPositionMs st now2 := by
  obtain ⟨c, b, p, o, sa, g, asrc, tot⟩ := st
  obtain ⟨hc, hb⟩ := hready
  simp only at hc hb hplaying
  subst hc hb hplaying
  refine ⟨?_, ?_, ?_, ?_⟩
  · simp [toggleGuideVocal, Transport.ready]
  · simp [toggleGuideVocal, Transport.ready]
  · simp [toggleGuideVocal, Transport.ready]
  · simp [toggleGuideVocal, Transport.ready, getPlaybackPositionMs]
    ring

/-- Witness for C7: playing transport with guide vocal off, toggled at
clock 3 s and 5 s: flag and active source return to the instrumental
track and the position at 5 s matches the untouched transport. -/
theorem toggleGuideVocal_twice_witness :
    (toggleGuideVocal (toggleGuideVocal
        ⟨true, true, true, 1, 2, false, some false, 60000⟩ 3) 5).useGuideVocal =
      false ∧
    getPlaybackPositionMs
        (toggleGuideVocal (toggleGuideVocal
          ⟨true, true, true, 1, 2, false, some false, 60000⟩ 3) 5) 5 =
      getPlaybackPositionMs ⟨true, true, true, 1, 2, false, some false, 60000⟩ 5 := by
  have h := toggleGuideVocal_twice ⟨true, true, true, 1, 2, false, some false, 60000⟩
    3 5 (by unfold Transport.ready; exact ⟨rfl, rfl⟩) rfl
  exact ⟨h.1, h.2.2.2⟩

/-!
The PitchBar component (src/unnamed/part_000): the svgData range
selection over timestamp-sorted pitchData.  A binary search finds the
first index with timeMs >= windowStartMs, then a forward scan collects
entries until the first timeMs >= windowEndMs.
-/

/-- The binary-search loop of PitchBar's svgData:
`while (lo < hi) { mid = (lo + hi) >>> 1;
 if (pitchData[mid].timeMs < windowStartMs) lo = mid + 1; else hi = mid }`. -/
def lowerBoundAux (data : List PitchEntry) (a : ℚ) (lo hi : Nat) : Nat :=
  if h : lo < hi then
    let mid := (lo + hi) / 2
    if (data.getD mid ⟨0, 0⟩).timeMs < a then lowerBoundAux data a (mid + 1) hi
    else lowerBoundAux data a lo mid
  else lo
termination_by hi - lo
decreasing_by
  all_goals simp_wf
  all_goals omega

/-- The lower bound used by svgData: the search over the whole array. -/
def svgLowerBound (data : List PitchEntry) (a : ℚ) : Nat :=
  lowerBoundAux data a 0 data.length

/-- The range selection of svgData: from the binary-search lower bound,
scan forward and stop at the first entry with timeMs >= windowEndMs. -/
def svgRangeQuery (data : List PitchEntry) (a b : ℚ) : List PitchEntry :=
  (data.drop (svgLowerBound data a)).takeWhile (fun e => decide (e.timeMs < b))

/-- The specification: a full linear scan keeping the samples with
a <= timeMs < b. -/
def linearRangeScan (data : List PitchEntry) (a b : ℚ) : List PitchEntry :=
  data.filter (fun e => decide (a ≤ e.timeMs ∧ e.timeMs < b))

/-- The timeline is sorted by non-decreasing timeMs. -/
def TimeSorted (data : List PitchEntry) : Prop :=
  data.Pairwise (fun x y => x.timeMs ≤ y.timeMs)

instance (data : List PitchEntry) : Decidable (TimeSorted data) := by
  unfold TimeSorted
  infer_instance

theorem timeSorted_getD_mono (data : List PitchEntry) (hs : TimeSorted data)
    (i j : Nat) (hij : i ≤ j) (hj : j < data.length) :
    (data.getD i ⟨0, 0⟩).timeMs ≤ (data.getD j ⟨0, 0⟩).timeMs := by
  have hi : i < data.length := lt_of_le_of_lt hij hj
  rw [List.getD_eq_getElem _ _ hi, List.getD_eq_getElem _ _ hj]
  rcases Nat.lt_or_eq_of_le hij with h | h
  · exact List.pairwise_iff_getElem.mp hs i j hi hj h
  · subst h
    exact le_refl _

theorem lowerBoundAux_spec (data : List PitchEntry) (a : ℚ)
    (hsorted : TimeSorted data) :
    ∀ lo hi : Nat, lo ≤ hi → hi ≤ data.length →
    (∀ i, i < lo → (data.getD i ⟨0, 0⟩).timeMs < a) →
    (∀ i, hi ≤ i → i < data.length → a ≤ (data.getD i ⟨0, 0⟩).timeMs) →
    lo ≤ lowerBoundAux data a lo hi ∧ lowerBoundAux data a lo hi ≤ hi ∧
    (∀ i, i < lowerBoundAux data a lo hi →
      (data.getD i ⟨0, 0⟩).timeMs < a) ∧
    (∀ i, lowerBoundAux data a lo hi ≤ i → i < data.length →
      a ≤ (data.getD i ⟨0, 0⟩).timeMs) := by
  intro lo hi
  generalize hfuel : hi - lo = fuel
  induction fuel using Nat.strong_induction_on generalizing lo hi with
  | _ fuel ih =>
    intro hlohi hhi hbelow habove
    rw [lowerBoundAux]
    by_cases h : lo < hi
    · rw [dif_pos h]
      simp only []
      by_cases htest : (data.getD ((lo + hi) / 2) ⟨0, 0⟩).timeMs < a
      · rw [if_pos htest]
        have hmid1 : lo ≤ (lo + hi) / 2 := by omega
        have hmid2 : (lo + hi) / 2 < hi := by omega
        have hbelow2 : ∀ i, i < (lo + hi) / 2 + 1 →
            (data.getD i ⟨0, 0⟩).timeMs < a := by
          intro i hilt
          have hle : i ≤ (lo + hi) / 2 := by omega
          exact lt_of_le_of_lt
            (timeSorted_getD_mono data hsorted i ((lo + hi) / 2) hle
              (by omega)) htest
        obtain ⟨h1, h2, h3, h4⟩ := ih (hi - ((lo + hi) / 2 + 1)) (by omega)
          ((lo + hi) / 2 + 1) hi rfl (by omega) hhi hbelow2 habove
        exact ⟨by omega, h2, h3, h4⟩
      · rw [if_neg htest]
        have hmid1 : lo ≤ (lo + hi) / 2 := by omega
        have hmid2 : (lo + hi) / 2 < hi := by omega
        have habove2 : ∀ i, (lo + hi) / 2 ≤ i → i < data.length →
            a ≤ (data.getD i ⟨0, 0⟩).timeMs := by
          intro i hile hilen
          exact le_trans (le_of_not_lt htest)
            (timeSorted_getD_mono data hsorted ((lo + hi) / 2) i hile hilen)
        obtain ⟨h1, h2, h3, h4⟩ := ih ((lo + hi) / 2 - lo) (by omega)
          lo ((lo + hi) / 2) rfl (by omega) (by omega) hbelow habove2
        exact ⟨h1, by omega, h3, h4⟩
    · rw [dif_neg h]
      have heq : lo = hi := by omega
      exact ⟨le_refl lo, hlohi, hbelow, by rw [heq]; exact habove⟩

theorem filter_eq_takeWhile_sorted (a b : ℚ) (l : List PitchEntry)
    (hs : TimeSorted l) (hge : ∀ x ∈ l, a ≤ x.timeMs) :
    l.filter (fun e => decide (a ≤ e.timeMs ∧ e.timeMs < b)) =
      l.takeWhile (fun e => decide (e.timeMs < b)) := by
  induction l with
  | nil => rfl
  | cons x xs ih =>
    have hx : a ≤ x.timeMs := hge x (List.mem_cons_self x xs)
    rw [TimeSorted, List.pairwise_cons] at hs
    by_cases hxb : x.timeMs < b
    · rw [List.filter_cons, List.takeWhile_cons,
        if_pos (by simp [hx, hxb]), if_pos (by simp [hxb])]
      rw [ih hs.2 (fun e he => hge e (List.mem_cons_of_mem x he))]
    · have hflt : xs.filter (fun e => decide (a ≤ e.timeMs ∧ e.timeMs < b)) =
          [] := by
        rw [List.filter_eq_nil_iff]
        intro e he
        have h1 : x.timeMs ≤ e.timeMs := hs.1 e he
        simp only [decide_eq_true_eq, not_and]
        intro _
        intro h3
        exact hxb (lt_of_le_of_lt h1 h3)
      rw [List.filter_cons, List.takeWhile_cons]
      rw [if_neg (by simp [hxb]), if_neg (by simp [hxb])]
      exact hflt

/-- C5: for every timestamp-sorted pitch sample list and window [a, b),
the renderer's selection (binary search for the first index with
timeMs >= a, then forward scan stopping at the first timeMs >= b)
selects exactly the samples a full linear scan keeps with
a <= timeMs < b. -/
theorem rangeQuery_eq_linearScan (data : List PitchEntry) (a b : ℚ)
    (hsorted : TimeSorted data) :
    svgRangeQuery data a b = linearRangeScan data a b := by
  obtain ⟨-, hrlen, hbelow, habove⟩ :=
    lowerBoundAux_spec data a hsorted 0 data.length (Nat.zero_le _) (le_refl _)
      (fun i hi => absurd hi (Nat.not_lt_zero i))
      (fun i hi1 hi2 => absurd hi2 (by omega))
  unfold svgRangeQuery linearRangeScan svgLowerBound
  set r := lowerBoundAux data a 0 data.length with hr
  conv_rhs => rw [← List.take_append_drop r data]
  rw [List.filter_append]
  have htake : (data.take r).filter
      (fun e => decide (a ≤ e.timeMs ∧ e.timeMs < b)) = [] := by
    rw [List.filter_eq_nil_iff]
    intro x hx
    obtain ⟨i, hi, hxe⟩ := List.mem_iff_getElem.mp hx
    have hi2 := hi
    rw [List.length_take] at hi2
    have hilen : i < data.length := by omega
    have hir : i < r := by omega
    have hxd : data.getD i ⟨0, 0⟩ = x := by
      rw [List.getD_eq_getElem _ _ hilen, ← hxe]
      exact (List.getElem_take data).symm
    have hlt : x.timeMs < a := by
      rw [← hxd]
      exact hbelow i hir
    simp only [decide_eq_true_eq, not_and]
    intro h1
    exact absurd (lt_of_lt_of_le hlt h1) (lt_irrefl _)
  have hdropge : ∀ x ∈ data.drop r, a ≤ x.timeMs := by
    intro x hx
    obtain ⟨i, hi, hxe⟩ := List.mem_iff_getElem.mp hx
    have hi2 := hi
    rw [List.length_drop] at hi2
    have hlen : r + i < data.length := by omega
    have hxd : data.getD (r + i) ⟨0, 0⟩ = x := by
      rw [List.getD_eq_getElem _ _ hlen, ← hxe]
      exact (List.getElem_drop data).symm
    have := habove (r + i) (Nat.le_add_right r i) hlen
    rwa [hxd] at this
  have hdropsorted : TimeSorted (data.drop r) := List.Pairwise.drop hsorted
  rw [htake, List.nil_append]
  exact (filter_eq_takeWhile_sorted a b (data.drop r) hdropsorted hdropge).symm

/-- Witness for C5: a concrete sorted timeline and the window
[10, 30): the binary-search selection equals the linear scan. -/
theorem rangeQuery_eq_linearScan_witness :
    TimeSorted [⟨0, 60⟩, ⟨10, 61⟩, ⟨20, 0⟩, ⟨30, 62⟩] ∧
    svgRangeQuery [⟨0, 60⟩, ⟨10, 61⟩, ⟨20, 0⟩, ⟨30, 62⟩] 10 30 =
      linearRangeScan [⟨0, 60⟩, ⟨10, 61⟩, ⟨20, 0⟩, ⟨30, 62⟩] 10 30 :=
  ⟨by decide,
   rangeQuery_eq_linearScan [⟨0, 60⟩, ⟨10, 61⟩, ⟨20, 0⟩, ⟨30, 62⟩] 10 30
     (by decide)⟩

/-!
The take-level pitch timeline accumulation: the onPitch callback of the
practice route pushes { timeMs: positionMs - micDelayMs, midi } onto a
pending batch, and a scheduled requestAnimationFrame flush appends the
batch to the pitch data, while the transport operations of
usePracticePlayback.ts run in between.
-/

/-- stopPlaybackInternal from src/app/lib/usePracticePlayback.ts (the
stop/pause path): folds the elapsed clock time into the stored offset
when playing with a context, marks not playing, and stops the sources.
The pitch-detection stop it awaits does not touch the transport refs or
the timeline. -/
def stopPlaybackInternal (st : Transport) (now : ℚ) : Transport :=
  if st.playing = true ∧ st.hasContext = true then
    { st with offset := st.offset + (now - st.startedAt),
              playing := false, activeSource := none }
  else { st with playing := false, activeSource := none }

/-- resumePlayback from src/app/lib/usePracticePlayback.ts (success
path of the pitch-detection restart): keeps the stored offset, records
startedAt = currentTime, and starts the source selected by
useGuideVocal. -/
def resumePlayback (st : Transport) (now : ℚ) : Transport :=
  if ¬st.ready then st
  else { st with startedAt := now, playing := true,
                 activeSource := some st.useGuideVocal }

/-- startPlayback from src/app/lib/usePracticePlayback.ts (success
path): resets the offset to 0, records startedAt, and starts the
selected source. -/
def startPlayback (st : Transport) (now : ℚ) : Transport :=
  if ¬st.ready then st
  else { st with offset := 0, startedAt := now, playing := true,
                 activeSource := some st.useGuideVocal }

/-- One take's accumulation state: the transport refs, the flushed
pitch data (the pitchData atom), the pending batch (pitchBufferRef),
and the calibration delay read at emission time. -/
structure TakeState where
  transport : Transport
  data : List PitchEntry
  batch : List PitchEntry
  micDelayMs : ℚ
  deriving Repr

/-- The take events: an emission tick (clock time, latest worker
estimate), a scheduled batch flush, and the transport operations, each
tagged with the audio-clock time at which it runs. -/
inductive TakeEvent where
  | tick : ℚ → ℚ → TakeEvent
  | flush : TakeEvent
  | start : ℚ → TakeEvent
  | pause : ℚ → TakeEvent
  | resume : ℚ → TakeEvent
  | seek : ℚ → ℚ → TakeEvent
  | toggle : ℚ → TakeEvent
  deriving Repr, DecidableEq

/-- One step of a take.  A tick appends
{ timeMs: getPlaybackPositionMs() - micDelayMs, midi } to the batch
(the practice route's onPitch callback); a flush appends the batch to
the data in order and empties it; startPlayback additionally clears the
pitch data (setPitchData([])); the other operations only act on the
transport refs. -/
def stepTake (s : TakeState) : TakeEvent → TakeState
  | .tick now midi =>
    { s with batch := s.batch ++
        [⟨getPlaybackPositionMs s.transport now - s.micDelayMs, midi⟩] }
  | .flush => { s with data := s.data ++ s.batch, batch := [] }
  | .start now =>
    if ¬s.transport.ready then s
    else { s with transport := startPlayback s.transport now, data := [] }
  | .pause now => { s with transport := stopPlaybackInternal s.transport now }
  | .resume now => { s with transport := resumePlayback s.transport now }
  | .seek now target => { s with transport := seekToMs s.transport now target }
  | .toggle now => { s with transport := toggleGuideVocal s.transport now }

/-- Run a take over an event sequence. -/
def runTake (s : TakeState) : List TakeEvent → TakeState
  | [] => s
  | ev :: rest => runTake (stepTake s ev) rest

/-- A counterexample take: playing transport (duration 10000 ms), no
delay, empty buffers. -/
def cexTake : TakeState :=
  ⟨⟨true, true, true, 0, 0, false, some false, 10000⟩, [], [], 0⟩

/-- A tick at clock 1 s, a seek back to 0 ms while playing, a tick at
clock 1.5 s, then the flush. -/
def cexEvents : List TakeEvent :=
  [.tick 1 60, .seek 1 0, .tick (3 / 2) 60, .flush]

/-- C8 counterexample: seeking backward during a take is among the
allowed transport operations (the lyric-click seek stays enabled while
practicing), and it breaks monotonicity: a tick at position 1000 ms,
a seek back to 0, and a tick at position 500 ms flush to the timeline
[1000, 500], which is not non-decreasing in timeMs. -/
theorem pitchTimeline_seek_counterexample :
    (runTake cexTake cexEvents).data = [⟨1000, 60⟩, ⟨500, 60⟩] ∧
    ¬ ((runTake cexTake cexEvents).data.Pairwise
        (fun x y => x.timeMs ≤ y.timeMs)) := by
  have h : (runTake cexTake cexEvents).data = [⟨1000, 60⟩, ⟨500, 60⟩] := by
    norm_num [cexTake, cexEvents, runTake, stepTake, getPlaybackPositionMs,
      seekToMs, Transport.ready]
  refine ⟨h, ?_⟩
  rw [h]
  intro hp
  rw [List.pairwise_cons] at hp
  have := hp.1 ⟨500, 60⟩ (List.mem_singleton.mpr rfl)
  norm_num at this

/-- The clock time carried by an event (a flush reads no clock). -/
def eventTime : TakeEvent → Option ℚ
  | .tick now _ => some now
  | .flush => none
  | .start now => some now
  | .pause now => some now
  | .resume now => some now
  | .seek now _ => some now
  | .toggle now => some now

/-- The clock times of the events are non-decreasing, starting from t. -/
def ClockMono : ℚ → List TakeEvent → Prop
  | _, [] => True
  | t, ev :: rest =>
    match eventTime ev with
    | none => ClockMono t rest
    | some u => t ≤ u ∧ ClockMono u rest

/-- A step is admissible when it does not move playback backward: a
seek must not decrease the position (forward seek), a resume happens
only while paused, and a start happens with an empty pending batch. -/
def Admissible (s : TakeState) : TakeEvent → Prop
  | .seek now target =>
    getPlaybackPositionMs s.transport now ≤
      getPlaybackPositionMs (seekToMs s.transport now target) now
  | .resume _ => s.transport.playing = false
  | .start _ => s.batch = []
  | _ => True

/-- Every step of the run is admissible in the state it runs in. -/
def AdmissibleRun : TakeState → List TakeEvent → Prop
  | _, [] => True
  | s, ev :: rest => Admissible s ev ∧ AdmissibleRun (stepTake s ev) rest

/-- The entries the ticks of the run emit, in emission order. -/
def emittedEntries (s : TakeState) : List TakeEvent → List PitchEntry
  | [] => []
  | ev :: rest =>
    (match ev with
     | .tick now midi =>
       [⟨getPlaybackPositionMs s.transport now - s.micDelayMs, midi⟩]
     | _ => []) ++ emittedEntries (stepTake s ev) rest

/-- The take invariant at clock time t: the accumulated entries (data
then pending batch) are non-decreasing in timeMs and all lie at or
before the current delayed position. -/
def TakeInv (s : TakeState) (t : ℚ) : Prop :=
  (s.data ++ s.batch).Pairwise (fun x y => x.timeMs ≤ y.timeMs) ∧
  ∀ e ∈ s.data ++ s.batch,
    e.timeMs ≤ getPlaybackPositionMs s.transport t - s.micDelayMs

theorem getPos_mono_time (st : Transport) (t1 t2 : ℚ) (h : t1 ≤ t2) :
    getPlaybackPositionMs st t1 ≤ getPlaybackPositionMs st t2 := by
  unfold getPlaybackPositionMs
  split
  · exact le_refl 0
  · split
    · exact le_refl _
    · have : st.offset + (t1 - st.startedAt) ≤ st.offset + (t2 - st.startedAt) := by
        linarith
      linarith

theorem pos_stopPlaybackInternal (st : Transport) (now u : ℚ) :
    getPlaybackPositionMs (stopPlaybackInternal st now) u =
      getPlaybackPositionMs st now := by
  obtain ⟨c, b, p, o, sa, g, asrc, tot⟩ := st
  cases c <;> cases p <;>
    simp [stopPlaybackInternal, getPlaybackPositionMs]

theorem pos_resumePlayback (st : Transport) (now : ℚ)
    (hp : st.playing = false) :
    getPlaybackPositionMs (resumePlayback st now) now =
      getPlaybackPositionMs st now := by
  obtain ⟨c, b, p, o, sa, g, asrc, tot⟩ := st
  simp only at hp
  subst hp
  cases c <;> cases b <;>
    simp [resumePlayback, getPlaybackPositionMs, Transport.ready]

theorem pos_toggleGuideVocal (st : Transport) (now : ℚ) :
    getPlaybackPositionMs (toggleGuideVocal st now) now =
      getPlaybackPositionMs st now := by
  obtain ⟨c, b, p, o, sa, g, asrc, tot⟩ := st
  cases c <;> cases b <;> cases p <;>
    simp [toggleGuideVocal, getPlaybackPositionMs, Transport.ready]

theorem takeInv_mono_time (s : TakeState) (t u : ℚ) (h : TakeInv s t)
    (htu : t ≤ u) : TakeInv s u := by
  obtain ⟨hpw, hbound⟩ := h
  refine ⟨hpw, fun e he => ?_⟩
  have h1 := hbound e he
  have h2 := getPos_mono_time s.transport t u htu
  linarith

theorem takeInv_transport (s : TakeState) (t now : ℚ) (T2 : Transport)
    (hinv : TakeInv s t) (ht : t ≤ now)
    (hpos : getPlaybackPositionMs s.transport now ≤
      getPlaybackPositionMs T2 now) :
    TakeInv { s with transport := T2 } now := by
  obtain ⟨hpw, hbound⟩ := hinv
  refine ⟨hpw, fun e he => ?_⟩
  have h1 := hbound e he
  have h2 := getPos_mono_time s.transport t now ht
  simp only at h1 he ⊢
  linarith

theorem stepTake_inv (s : TakeState) (t : ℚ) (ev : TakeEvent)
    (hinv : TakeInv s t) (hadm : Admissible s ev)
    (htime : ∀ u, eventTime ev = some u → t ≤ u) :
    TakeInv (stepTake s ev) ((eventTime ev).getD t) := by
  obtain ⟨hpw, hbound⟩ := hinv
  cases ev with
  | tick now midi =>
    have htn : t ≤ now := htime now rfl
    have hmono := getPos_mono_time s.transport t now htn
    simp only [stepTake, eventTime, Option.getD]
    constructor
    · rw [← List.append_assoc, List.pairwise_append]
      refine ⟨hpw, List.pairwise_singleton _ _, ?_⟩
      intro x hx y hy
      rw [List.mem_singleton] at hy
      subst hy
      have h1 := hbound x hx
      simp only
      linarith
    · intro e he
      rw [← List.append_assoc] at he
      rcases List.mem_append.mp he with hold | hnew
      · have h1 := hbound e hold
        simp only
        linarith
      · rw [List.mem_singleton] at hnew
        subst hnew
        simp only
        exact le_refl _
  | flush =>
    simp only [stepTake, eventTime, Option.getD]
    unfold TakeInv
    simp only [List.append_nil]
    exact ⟨hpw, hbound⟩
  | start now =>
    have htn : t ≤ now := htime now rfl
    simp only [stepTake, eventTime, Option.getD]
    by_cases hr : s.transport.ready
    · rw [if_neg (not_not_intro hr)]
      have hb : s.batch = [] := hadm
      refine ⟨?_, ?_⟩
      · simp [hb]
      · intro e he
        rw [hb] at he
        simp at he
    · rw [if_pos hr]
      exact takeInv_mono_time s t now ⟨hpw, hbound⟩ htn
  | pause now =>
    have htn : t ≤ now := htime now rfl
    simp only [stepTake, eventTime, Option.getD]
    exact takeInv_transport s t now _ ⟨hpw, hbound⟩ htn
      (le_of_eq (pos_stopPlaybackInternal s.transport now now).symm)
  | resume now =>
    have htn : t ≤ now := htime now rfl
    simp only [stepTake, eventTime, Option.getD]
    exact takeInv_transport s t now _ ⟨hpw, hbound⟩ htn
      (le_of_eq (pos_resumePlayback s.transport now hadm).symm)
  | seek now target =>
    have htn : t ≤ now := htime now rfl
    simp only [stepTake, eventTime, Option.getD]
    exact takeInv_transport s t now _ ⟨hpw, hbound⟩ htn hadm
  | toggle now =>
    have htn : t ≤ now := htime now rfl
    simp only [stepTake, eventTime, Option.getD]
    exact takeInv_transport s t now _ ⟨hpw, hbound⟩ htn
      (le_of_eq (pos_toggleGuideVocal s.transport now).symm)

theorem runTake_inv (evs : List TakeEvent) (s : TakeState) (t : ℚ)
    (hinv : TakeInv s t) (hclock : ClockMono t evs)
    (hadm : AdmissibleRun s evs) :
    ∃ u, TakeInv (runTake s evs) u := by
  induction evs generalizing s t with
  | nil => exact ⟨t, hinv⟩
  | cons ev rest ih =>
    obtain ⟨hadm1, hadm2⟩ := hadm
    rw [runTake]
    cases hev : eventTime ev with
    | none =>
      have hstep := stepTake_inv s t ev hinv hadm1
        (fun u hu => by rw [hev] at hu; exact absurd hu (by simp))
      rw [hev] at hstep
      simp only [ClockMono] at hclock
      rw [hev] at hclock
      exact ih (stepTake s ev) t hstep hclock hadm2
    | some u =>
      simp only [ClockMono] at hclock
      rw [hev] at hclock
      have hstep := stepTake_inv s t ev hinv hadm1
        (fun v hv => by rw [hev] at hv; injection hv with hv2; rw [← hv2]; exact hclock.1)
      rw [hev] at hstep
      exact ih (stepTake s ev) u hstep hclock.2 hadm2

theorem runTake_order (evs : List TakeEvent) (s : TakeState)
    (hns : ∀ u : ℚ, TakeEvent.start u ∉ evs) :
    (runTake s evs).data ++ (runTake s evs).batch =
      (s.data ++ s.batch) ++ emittedEntries s evs := by
  induction evs generalizing s with
  | nil => simp [runTake, emittedEntries]
  | cons ev rest ih =>
    have hns2 : ∀ u : ℚ, TakeEvent.start u ∉ rest :=
      fun u h => hns u (List.mem_cons_of_mem _ h)
    cases ev with
    | tick now midi =>
      rw [runTake, ih (stepTake s (.tick now midi)) hns2]
      simp [stepTake, emittedEntries]
    | flush =>
      rw [runTake, ih (stepTake s .flush) hns2]
      simp [stepTake, emittedEntries]
    | start u => exact absurd (List.mem_cons_self _ _) (hns u)
    | pause now =>
      rw [runTake, ih (stepTake s (.pause now)) hns2]
      simp [stepTake, emittedEntries]
    | resume now =>
      rw [runTake, ih (stepTake s (.resume now)) hns2]
      simp [stepTake, emittedEntries]
    | seek now target =>
      rw [runTake, ih (stepTake s (.seek now target)) hns2]
      simp [stepTake, emittedEntries]
    | toggle now =>
      rw [runTake, ih (stepTake s (.toggle now)) hns2]
      simp [stepTake, emittedEntries]

/-- C8 amended: during a take the pitch timeline stays monotonically
non-decreasing in timeMs for every sequence of emission ticks, batch
flushes and transport operations whose clock times are non-decreasing,
PROVIDED no operation moves the playback position backward: seeks must
be forward (the original claim fails for backward seeks, which remain
reachable during a take - see the counterexample), resume runs only
while paused, and start runs with an empty pending batch.  Moreover,
for any such run without start events, the accumulated data plus
pending batch equals the previous contents followed by the emitted
entries in emission order: flushing batches never reorders. -/
theorem pitchTimeline_monotone_of_forward (s : TakeState) (t : ℚ)
    (evs : List TakeEvent) (hinv : TakeInv s t) (hclock : ClockMono t evs)
    (hadm : AdmissibleRun s evs) :
    ((runTake s evs).data ++ (runTake s evs).batch).Pairwise
      (fun x y => x.timeMs ≤ y.timeMs) ∧
    ((∀ u : ℚ, TakeEvent.start u ∉ evs) →
      (runTake s evs).data ++ (runTake s evs).batch =
        (s.data ++ s.batch) ++ emittedEntries s evs) := by
  constructor
  · obtain ⟨u, hi⟩ := runTake_inv evs s t hinv hclock hadm
    exact hi.1
  · intro hns
    exact runTake_order evs s hns

/-- Witness take for C8 amended: a fresh playing transport. -/
def wTake : TakeState :=
  ⟨⟨true, true, true, 0, 0, false, some false, 10000⟩, [], [], 0⟩

/-- Witness events: tick, pause, resume, tick, guide toggle, tick,
flush, at non-decreasing clock times. -/
def wEvents : List TakeEvent :=
  [.tick 1 60, .pause 2, .resume 3, .tick 4 61, .toggle 5, .tick 6 62,
   .flush]

/-- Witness for C8 amended: running the witness events leaves the
timeline non-decreasing in timeMs. -/
theorem pitchTimeline_monotone_of_forward_witness :
    ((runTake wTake wEvents).data ++ (runTake wTake wEvents).batch).Pairwise
      (fun x y => x.timeMs ≤ y.timeMs) :=
  (pitchTimeline_monotone_of_forward wTake 0 wEvents
    (by constructor <;> simp [wTake])
    (by simp only [ClockMono, wEvents, eventTime]; decide)
    (by simp [AdmissibleRun, Admissible, wEvents, wTake, stepTake,
          stopPlaybackInternal, resumePlayback, getPlaybackPositionMs,
          toggleGuideVocal, Transport.ready])).1
